import Mathlib

/-
  Verification development for the single-axis image stretch routine of
  src/libImaging/Antialias.c (pillow-simd).

  The C code is shallowly embedded as follows:
  * float arithmetic is modelled as exact arithmetic in a linear ordered
    field with a floor function (instantiated at the rationals for
    concrete evaluation);
  * C int values are modelled as unbounded integers (no accumulator in
    the routine reaches the 32-bit range for normalized coefficient rows,
    and the saturation function clips any integer into the byte range);
  * the truncating (int) cast of C is modelled by truncI (round toward
    zero);
  * malloc is assumed to succeed, so the memory-error exits are not
    modelled;
  * the lanczos (antialias) kernel uses the libm sine; the development
    keeps that kernel as an abstract function parameter aaf (its formula
    is recorded in a comment below), since no settled claim depends on
    its values.
-/

namespace Antialias

/-- Modelled from the spec: the pixel mode of an image buffer (Imaging.h is
not part of the excerpt).  The mode string of the original determines the
sample type and the channel (band) count; we model it as that pair.  The
routine compares modes for equality only. -/
structure Mode where
  type : ℕ
  bands : ℕ
deriving DecidableEq

/-- Modelled from the spec: the image-buffer abstraction the routine
consumes: width, height, mode, and indexed access to the pixel bytes.
image y i is the byte at offset i of row y; rows are channel-interleaved
with 4 bytes per pixel as in the original packed layout. -/
structure Image where
  mode : Mode
  xsize : ℕ
  ysize : ℕ
  image : ℕ → ℕ → ℕ

/-- Modelled from the spec: the sample-type tag for 8-bit unsigned samples
(the only type the excerpt implements). -/
def IMAGING_TYPE_UINT8 : ℕ := 0

/-- Modelled from the spec: filter identifier tags.  The claims do not
depend on the numeric values, only on the tags being distinct. -/
def IMAGING_TRANSFORM_NEAREST : ℕ := 0

/-- Modelled from the spec: the lanczos3 (antialias) filter identifier. -/
def IMAGING_TRANSFORM_ANTIALIAS : ℕ := 1

/-- Modelled from the spec: the bilinear filter identifier. -/
def IMAGING_TRANSFORM_BILINEAR : ℕ := 2

/-- Modelled from the spec: the bicubic filter identifier. -/
def IMAGING_TRANSFORM_BICUBIC : ℕ := 3

/-- Error outcomes of ImagingStretch (mode error, unsupported filter,
dimension mismatch).  Errors are synchronous return values. -/
inductive StretchErr where
  | modeError
  | valueError
  | mismatch
deriving DecidableEq

/-- PRECISION_BITS of Antialias.c: 8 bits for the result, 2 guard bits. -/
def PRECISION_BITS : ℕ := 32 - 8 - 2

/-- clip8 of Antialias.c: saturate a descaled fixed-point accumulator into
the byte range. -/
def clip8 (v : ℤ) : ℕ :=
  if 2 ^ (PRECISION_BITS + 8) ≤ v then 255
  else if v ≤ 0 then 0
  else (v / 2 ^ PRECISION_BITS).toNat

section Field

variable {α : Type*} [LinearOrderedField α] [FloorRing α]

/-- The C (int) cast: truncation toward zero. -/
def truncI (q : α) : ℤ := if q < 0 then ⌈q⌉ else ⌊q⌋

/-- nearest_filter of Antialias.c. -/
def nearest_filter (x : α) : α :=
  if -(1/2) ≤ x ∧ x < 1/2 then 1 else 0

/-- The if (x < 0.0) x = -x; prologue shared by the bilinear and bicubic
kernels. -/
def absC (x : α) : α := if x < 0 then -x else x

/-- bilinear_filter of Antialias.c. -/
def bilinear_filter (x : α) : α :=
  if absC x < 1 then 1 - absC x else 0

/-- bicubic_filter of Antialias.c, kept exactly as written there, with the
curvature parameter a inlined to 0 as the #define does.  Note the middle
branch reads (((a*x) - 5*a)*x + 8)*x - 4*a: the 8 is not multiplied
by a. -/
def bicubic_filter (x : α) : α :=
  if absC x < 1 then ((((0 : α) + 2) * absC x) - ((0 : α) + 3)) * absC x * absC x + 1
  else if absC x < 2 then ((((0 : α) * absC x) - 5 * (0 : α)) * absC x + 8) * absC x - 4 * (0 : α)
  else 0

/-- scale of ImagingStretch: source axis length over destination axis
length (real division). -/
def scaleOf (srcLen dstLen : ℕ) : α := (srcLen : α) / (dstLen : α)

/-- filterscale of ImagingStretch: the scale, raised to 1 when below 1. -/
def fscaleOf (srcLen dstLen : ℕ) : α :=
  if scaleOf srcLen dstLen < (1 : α) then 1 else scaleOf srcLen dstLen

/-- support of ImagingStretch: the kernel support radius widened by
filterscale. -/
def supportOf (supp : α) (srcLen dstLen : ℕ) : α :=
  supp * fscaleOf srcLen dstLen

/-- center of ImagingStretch for destination index i: (i + 0.5) * scale. -/
def centerOf (srcLen dstLen i : ℕ) : α :=
  ((i : α) + 1/2) * scaleOf srcLen dstLen

/-- The lower window bound: (int) floor(center - support), clamped below
at 0 exactly as the code does. -/
def winMin (supp : α) (srcLen dstLen i : ℕ) : ℤ :=
  if ⌊centerOf (α := α) srcLen dstLen i - supportOf supp srcLen dstLen⌋ < 0 then 0
  else ⌊centerOf (α := α) srcLen dstLen i - supportOf supp srcLen dstLen⌋

/-- The upper window bound: (int) ceil(center + support), clamped above at
srcLen exactly as the code does. -/
def winMax (supp : α) (srcLen dstLen i : ℕ) : ℤ :=
  if (srcLen : ℤ) < ⌈centerOf (α := α) srcLen dstLen i + supportOf supp srcLen dstLen⌉ then
    (srcLen : ℤ)
  else ⌈centerOf (α := α) srcLen dstLen i + supportOf supp srcLen dstLen⌉

/-- The source indices of the window [winMin, winMax). -/
def winIdx (supp : α) (srcLen dstLen i : ℕ) : List ℤ :=
  (List.range (winMax supp srcLen dstLen i - winMin supp srcLen dstLen i).toNat).map
    (fun (t : ℕ) => winMin supp srcLen dstLen i + (t : ℤ))

/-- The raw filter weights of one coefficient row:
k(( j - center + 0.5) * ss) * ss with ss = 1 / filterscale. -/
def rawW (K : α → α) (supp : α) (srcLen dstLen i : ℕ) : List α :=
  (winIdx supp srcLen dstLen i).map (fun (j : ℤ) =>
    K (((j : α) - centerOf srcLen dstLen i + 1/2) * (1 / fscaleOf srcLen dstLen)) *
      (1 / fscaleOf srcLen dstLen))

/-- ww of ImagingStretch: the raw weight total of one row. -/
def wwOf (K : α → α) (supp : α) (srcLen dstLen i : ℕ) : α :=
  (rawW K supp srcLen dstLen i).sum

/-- The normalized weights k[x] /= ww. -/
def normW (K : α → α) (supp : α) (srcLen dstLen i : ℕ) : List α :=
  (rawW K supp srcLen dstLen i).map (fun w => w / wwOf K supp srcLen dstLen i)

/-- The fixed-point weights intk[x] = (int)(k[x] * (1 << PRECISION_BITS)). -/
def intW (K : α → α) (supp : α) (srcLen dstLen i : ℕ) : List ℤ :=
  (normW K supp srcLen dstLen i).map (fun w => truncI (w * 2 ^ PRECISION_BITS))

/-- The filter switch of ImagingStretch: identifier to (kernel, support).
The antialias (lanczos3) kernel is the abstract parameter aaf. -/
def filterTable (aaf : α → α) : ℕ → Option ((α → α) × α)
  | 0 => some (nearest_filter, 1/2)
  | 1 => some (aaf, 3)
  | 2 => some (bilinear_filter, 1)
  | 3 => some (bicubic_filter, 2)
  | _ => none

/-- The exact store footprint condition of both pixel loops: row and byte
in destination bounds, channel offset 0, 1 or 2 of a 4-byte pixel, 8-bit
sample type and 3 bands (the other switch/bands branches have empty
bodies). -/
def writeCond (imIn imOut : Image) (y i : ℕ) : Bool :=
  decide (y < imOut.ysize) && decide (i < imOut.xsize * 4) && decide (i % 4 < 3) &&
    decide (imIn.mode.type = IMAGING_TYPE_UINT8) && decide (imIn.mode.bands = 3)

/-- The inner accumulation: sum of sample * intk over the window, where s
maps a window index to the source byte ((UINT8) cast modelled by % 256). -/
def wsum (s : ℤ → ℕ) (idx : List ℤ) (w : List ℤ) : ℤ :=
  ((idx.zip w).map (fun p => ((s p.1 % 256 : ℕ) : ℤ) * p.2)).sum

/-- The horizontal-stretch pixel function: for every written byte,
accumulate the window of row y with the coefficient row of output column
i / 4, starting from the rounding bias, and saturate with clip8. -/
def horizPix (K : α → α) (supp : α) (imOut imIn : Image) (y i : ℕ) : ℕ :=
  if writeCond imIn imOut y i then
    clip8 (2 ^ (PRECISION_BITS - 1) +
      wsum (fun j => imIn.image y (j.toNat * 4 + i % 4))
        (winIdx supp imIn.xsize imOut.xsize (i / 4))
        (intW K supp imIn.xsize imOut.xsize (i / 4)))
  else imOut.image y i

/-- The horizontal-stretch pixel pass over the destination buffer. -/
def horizStretch (K : α → α) (supp : α) (imOut imIn : Image) : Image :=
  { imOut with image := horizPix K supp imOut imIn }

/-- The vertical-stretch pixel function: for every written byte,
accumulate the window of column byte i across source rows with the
coefficient row of output row y. -/
def vertPix (K : α → α) (supp : α) (imOut imIn : Image) (y i : ℕ) : ℕ :=
  if writeCond imIn imOut y i then
    clip8 (2 ^ (PRECISION_BITS - 1) +
      wsum (fun j => imIn.image j.toNat i)
        (winIdx supp imIn.ysize imOut.ysize y)
        (intW K supp imIn.ysize imOut.ysize y))
  else imOut.image y i

/-- The vertical-stretch pixel pass over the destination buffer. -/
def vertStretch (K : α → α) (supp : α) (imOut imIn : Image) : Image :=
  { imOut with image := vertPix K supp imOut imIn }

/-- The dimension dispatch of ImagingStretch: the prep step accepts the
request if either axis matches (returning Mismatch otherwise), then the
body stretches vertically when the widths match and horizontally
otherwise.  The scale used by either pass equals the prep-step scale in
every reachable configuration, so the passes recompute it from their own
axis lengths. -/
def stretchWithKernel (K : α → α) (supp : α) (imOut imIn : Image) :
    Except StretchErr Image :=
  if imIn.ysize = imOut.ysize ∨ imIn.xsize = imOut.xsize then
    if imIn.xsize = imOut.xsize then .ok (vertStretch K supp imOut imIn)
    else .ok (horizStretch K supp imOut imIn)
  else .error .mismatch

/-- ImagingStretch of Antialias.c: mode check, filter switch, dimension
dispatch, coefficient build and convolution. -/
def ImagingStretch (aaf : α → α) (imOut imIn : Image) (filter : ℕ) :
    Except StretchErr Image :=
  if imIn.mode = imOut.mode then
    match filterTable aaf filter with
    | some ks => stretchWithKernel ks.1 ks.2 imOut imIn
    | none => .error .valueError
  else .error .modeError

end Field

/-
  The remaining kernel of Antialias.c, kept abstract here (parameter aaf of
  the developments below) because it is built on the transcendental libm
  sine and no settled claim depends on its values:

    sinc_filter x      = 1 when x = 0, else sin (x * pi) / (x * pi)
    antialias_filter x = sinc_filter x * sinc_filter (x / 3)
                           when -3 <= x < 3, else 0   (lanczos3, support 3)
-/

/-- A trivial stand-in for the antialias kernel in rational developments
whose claims do not depend on its values. -/
def aaf0 : ℚ → ℚ := fun _ => 0

/-- An all-zero pixel buffer. -/
def pix0 : ℕ → ℕ → ℕ := fun _ _ => 0

/-- The 8-bit three-band mode. -/
def modeRGB : Mode := ⟨IMAGING_TYPE_UINT8, 3⟩

/-- The 8-bit single-band mode. -/
def modeL : Mode := ⟨IMAGING_TYPE_UINT8, 1⟩

/-- A mode with a different sample-type tag (e.g. a 32-bit mode). -/
def modeF : Mode := ⟨1, 1⟩

/-- The 1x4 single-band source row [0, 85, 170, 255] of the spec scenario. -/
def imgSrcL4 : Image := ⟨modeL, 4, 1, fun _ i => [0, 85, 170, 255].getD (i / 4) 0⟩

/-- A 2x1 single-band destination prefilled with the sentinel byte 99. -/
def imgDstL2 : Image := ⟨modeL, 2, 1, fun _ _ => 99⟩

/-- A 1x1 three-band image. -/
def imgSq : Image := ⟨modeRGB, 1, 1, pix0⟩

/-- A 2x3 three-band image. -/
def imgA : Image := ⟨modeRGB, 2, 3, pix0⟩

/-- A 4x5 three-band image (no axis shared with imgA). -/
def imgB : Image := ⟨modeRGB, 4, 5, pix0⟩

/-- A 1x3 three-band column whose middle pixel is (255,255,255) and whose
other pixels are black. -/
def imgV3 : Image := ⟨modeRGB, 1, 3, fun y _ => if y = 1 then 255 else 0⟩

/-- A 1x3 three-band destination prefilled with the sentinel byte 7. -/
def imgOut3 : Image := ⟨modeRGB, 1, 3, fun _ _ => 7⟩

/-- A 7x1 three-band row. -/
def imgRow7 : Image := ⟨modeRGB, 7, 1, pix0⟩

/-- A 1x1 three-band destination. -/
def imgRow1 : Image := ⟨modeRGB, 1, 1, pix0⟩

/-- A degenerate three-band source with an empty x axis. -/
def imgSrc0 : Image := ⟨modeRGB, 0, 1, pix0⟩

/-- A 2x1 three-band destination for the degenerate source. -/
def imgDst2 : Image := ⟨modeRGB, 2, 1, pix0⟩

/-- A 2x2 image with the non-UINT8 mode. -/
def imgF : Image := ⟨modeF, 2, 2, pix0⟩

/-! Helper lemmas. -/

theorem clip8_le_255 (v : ℤ) : clip8 v ≤ 255 := by
  unfold clip8 PRECISION_BITS
  split_ifs <;> omega

section ListLemmas

variable {α : Type*} [LinearOrderedField α]

theorem list_sum_map_div (l : List α) (c : α) :
    (l.map (fun x => x / c)).sum = l.sum / c := by
  induction l with
  | nil => simp
  | cons a t ih => simp [List.sum_cons, ih, add_div]

theorem list_sum_map_mul (l : List α) (c : α) :
    (l.map (fun x => x * c)).sum = l.sum * c := by
  induction l with
  | nil => simp
  | cons a t ih => simp [List.sum_cons, ih, add_mul]

theorem list_sum_intCast (l : List ℤ) :
    ((l.sum : ℤ) : α) = (l.map (fun z : ℤ => (z : α))).sum := by
  induction l with
  | nil => simp
  | cons a t ih => simp only [List.sum_cons, List.map_cons, Int.cast_add, ih]

theorem list_sum_pos_of_mem {l : List α} (h0 : ∀ x ∈ l, 0 ≤ x) {x : α}
    (hx : x ∈ l) (hpos : 0 < x) : 0 < l.sum := by
  induction l with
  | nil => cases hx
  | cons a t ih =>
    rw [List.sum_cons]
    have ht : 0 ≤ t.sum :=
      List.sum_nonneg (fun y hy => h0 y (List.mem_cons_of_mem _ hy))
    rcases List.mem_cons.mp hx with rfl | hmem
    · linarith
    · have ha : 0 ≤ a := h0 a (List.mem_cons_self a t)
      have := ih (fun y hy => h0 y (List.mem_cons_of_mem _ hy)) hmem
      linarith

end ListLemmas

section FieldLemmas

variable {α : Type*} [LinearOrderedField α] [FloorRing α]

theorem truncI_err (q : α) : |((truncI q : ℤ) : α) - q| < 1 := by
  unfold truncI
  split_ifs with h
  · rw [abs_of_nonneg (sub_nonneg.mpr (Int.le_ceil q))]
    have := Int.ceil_lt_add_one q
    linarith
  · rw [abs_of_nonpos (sub_nonpos.mpr (Int.floor_le q))]
    have := Int.lt_floor_add_one q
    linarith

theorem trunc_sum_err :
    ∀ l : List α, l ≠ [] →
      |(l.map (fun q => ((truncI q : ℤ) : α))).sum - l.sum| < (l.length : α) := by
  intro l
  induction l with
  | nil => intro h; exact absurd rfl h
  | cons q t ih =>
    intro _
    rcases eq_or_ne t [] with rfl | ht
    · simpa using truncI_err q
    · have h2 := ih ht
      have h1 := truncI_err q
      have habs := abs_add (((truncI q : ℤ) : α) - q)
        ((t.map (fun q => ((truncI q : ℤ) : α))).sum - t.sum)
      simp only [List.map_cons, List.sum_cons, List.length_cons]
      have heq : ((truncI q : ℤ) : α) + (t.map (fun q => ((truncI q : ℤ) : α))).sum -
          (q + t.sum) =
          (((truncI q : ℤ) : α) - q) +
            ((t.map (fun q => ((truncI q : ℤ) : α))).sum - t.sum) := by ring
      rw [heq]
      push_cast
      calc |(((truncI q : ℤ) : α) - q) +
            ((t.map (fun q => ((truncI q : ℤ) : α))).sum - t.sum)| ≤
          |((truncI q : ℤ) : α) - q| +
            |(t.map (fun q => ((truncI q : ℤ) : α))).sum - t.sum| := habs
        _ < (t.length : α) + 1 := by linarith

theorem one_le_fscaleOf {srcLen dstLen : ℕ} : (1 : α) ≤ fscaleOf srcLen dstLen := by
  unfold fscaleOf
  split_ifs with h
  · exact le_refl 1
  · exact not_lt.mp h

theorem fscaleOf_pos {srcLen dstLen : ℕ} : (0 : α) < fscaleOf srcLen dstLen :=
  lt_of_lt_of_le one_pos one_le_fscaleOf

theorem scaleOf_le_fscaleOf {srcLen dstLen : ℕ} :
    (scaleOf srcLen dstLen : α) ≤ fscaleOf srcLen dstLen := by
  unfold fscaleOf
  split_ifs with h
  · exact h.le
  · exact le_refl _

theorem fscaleOf_eq_max {srcLen dstLen : ℕ} :
    (fscaleOf srcLen dstLen : α) = max (scaleOf srcLen dstLen) 1 := by
  unfold fscaleOf
  split_ifs with h
  · exact (max_eq_right h.le).symm
  · exact (max_eq_left (not_lt.mp h)).symm

theorem scaleOf_pos {srcLen dstLen : ℕ} (hs : 1 ≤ srcLen) (hd : 1 ≤ dstLen) :
    (0 : α) < scaleOf srcLen dstLen := by
  unfold scaleOf
  have h1 : (0 : α) < srcLen := by exact_mod_cast hs
  have h2 : (0 : α) < dstLen := by exact_mod_cast hd
  positivity

theorem centerOf_pos {srcLen dstLen i : ℕ} (hs : 1 ≤ srcLen) (hd : 1 ≤ dstLen) :
    (0 : α) < centerOf srcLen dstLen i := by
  unfold centerOf
  have := scaleOf_pos (α := α) hs hd
  positivity

theorem centerOf_lt {srcLen dstLen i : ℕ} (hs : 1 ≤ srcLen) (hd : 1 ≤ dstLen)
    (hi : i < dstLen) : (centerOf srcLen dstLen i : α) < srcLen := by
  unfold centerOf scaleOf
  have hd0 : (dstLen : α) ≠ 0 := Nat.cast_ne_zero.mpr (by omega)
  have h0 : (0 : α) < (srcLen : α) / (dstLen : α) := scaleOf_pos hs hd
  have h1 : (i : α) + 1/2 < (dstLen : α) := by
    have : ((i : ℕ) : α) + 1 ≤ (dstLen : α) := by exact_mod_cast hi
    linarith
  calc ((i : α) + 1/2) * ((srcLen : α) / (dstLen : α)) <
      (dstLen : α) * ((srcLen : α) / (dstLen : α)) :=
        mul_lt_mul_of_pos_right h1 h0
    _ = (srcLen : α) := by field_simp

theorem winMin_lt_winMax {supp : α} {srcLen dstLen i : ℕ} (hsupp : 0 < supp)
    (hs : 1 ≤ srcLen) (hd : 1 ≤ dstLen) (hi : i < dstLen) :
    winMin supp srcLen dstLen i < winMax supp srcLen dstLen i := by
  have hfs : (0 : α) < fscaleOf srcLen dstLen := fscaleOf_pos
  have hsup : (0 : α) < supportOf supp srcLen dstLen := mul_pos hsupp hfs
  have hc0 : (0 : α) < centerOf srcLen dstLen i := centerOf_pos hs hd
  have hcs : (centerOf srcLen dstLen i : α) < srcLen := centerOf_lt hs hd hi
  have h1 : ⌊(centerOf srcLen dstLen i : α) - supportOf supp srcLen dstLen⌋ <
      ⌈(centerOf srcLen dstLen i : α) + supportOf supp srcLen dstLen⌉ := by
    have l1 := Int.floor_le ((centerOf srcLen dstLen i : α) - supportOf supp srcLen dstLen)
    have l2 := Int.le_ceil ((centerOf srcLen dstLen i : α) + supportOf supp srcLen dstLen)
    have : ((⌊(centerOf srcLen dstLen i : α) - supportOf supp srcLen dstLen⌋ : ℤ) : α) <
        ((⌈(centerOf srcLen dstLen i : α) + supportOf supp srcLen dstLen⌉ : ℤ) : α) := by
      linarith
    exact_mod_cast this
  have h2 : 0 < ⌈(centerOf srcLen dstLen i : α) + supportOf supp srcLen dstLen⌉ := by
    have l2 := Int.le_ceil ((centerOf srcLen dstLen i : α) + supportOf supp srcLen dstLen)
    have : ((0 : ℤ) : α) <
        ((⌈(centerOf srcLen dstLen i : α) + supportOf supp srcLen dstLen⌉ : ℤ) : α) := by
      push_cast
      linarith
    exact_mod_cast this
  have h3 : ⌊(centerOf srcLen dstLen i : α) - supportOf supp srcLen dstLen⌋ < (srcLen : ℤ) := by
    rw [Int.floor_lt]
    push_cast
    linarith
  have h4 : (1 : ℤ) ≤ (srcLen : ℤ) := by exact_mod_cast hs
  unfold winMin winMax
  split_ifs <;> omega

theorem mem_winIdx {supp : α} {srcLen dstLen i : ℕ} {j : ℤ}
    (h1 : winMin supp srcLen dstLen i ≤ j) (h2 : j < winMax supp srcLen dstLen i) :
    j ∈ winIdx supp srcLen dstLen i := by
  unfold winIdx
  rw [List.mem_map]
  refine ⟨(j - winMin supp srcLen dstLen i).toNat, ?_, ?_⟩
  · rw [List.mem_range]
    omega
  · omega

theorem wwOf_pos {supp : α} {srcLen dstLen i : ℕ} (K : α → α)
    (hs : 1 ≤ srcLen) (hd : 1 ≤ dstLen) (hi : i < dstLen) (hsupp : 1/2 ≤ supp)
    (hK0 : ∀ x, 0 ≤ K x) (hKpos : ∀ x : α, -(1/2) ≤ x → x < 1/2 → 0 < K x) :
    0 < wwOf K supp srcLen dstLen i := by
  have hfs1 : (1 : α) ≤ fscaleOf srcLen dstLen := one_le_fscaleOf
  have hfs0 : (0 : α) < fscaleOf srcLen dstLen := fscaleOf_pos
  set fs := (fscaleOf srcLen dstLen : α) with hfs
  set c := (centerOf srcLen dstLen i : α) with hc
  have hc0 : 0 < c := centerOf_pos hs hd
  have hcs : c < (srcLen : α) := centerOf_lt hs hd hi
  have hsrc1 : (1 : α) ≤ (srcLen : α) := by exact_mod_cast hs
  have hss : fs / 2 ≤ supportOf supp srcLen dstLen := by
    unfold supportOf
    rw [← hfs]
    calc fs / 2 = (1/2) * fs := by ring
      _ ≤ supp * fs := mul_le_mul_of_nonneg_right hsupp hfs0.le
  set js : ℤ := max 0 ⌈c - fs / 2 - 1/2⌉ with hjs
  have hjs0 : (0 : ℤ) ≤ js := le_max_left _ _
  have hlow : c - fs/2 - 1/2 ≤ (js : α) := by
    have h := Int.le_ceil (c - fs/2 - 1/2)
    have h3 : ((⌈c - fs/2 - 1/2⌉ : ℤ) : α) ≤ (js : α) := by
      exact_mod_cast le_max_right (0 : ℤ) ⌈c - fs / 2 - 1/2⌉
    linarith
  have hhigh : (js : α) < c + fs/2 - 1/2 := by
    rcases le_or_lt ⌈c - fs / 2 - 1/2⌉ 0 with h | h
    · have hj0 : js = 0 := max_eq_left h
      rw [hj0]
      push_cast
      linarith
    · have hj : js = ⌈c - fs / 2 - 1/2⌉ := max_eq_right h.le
      have hlt := Int.ceil_lt_add_one (c - fs/2 - 1/2)
      rw [hj]
      linarith
  have hjsrc : (js : α) < (srcLen : α) := by
    rcases le_or_lt ⌈c - fs / 2 - 1/2⌉ 0 with h | h
    · have hj0 : js = 0 := max_eq_left h
      rw [hj0]
      push_cast
      linarith
    · have hj : js = ⌈c - fs / 2 - 1/2⌉ := max_eq_right h.le
      have hlt := Int.ceil_lt_add_one (c - fs/2 - 1/2)
      rw [hj]
      linarith
  have hminle : winMin supp srcLen dstLen i ≤ js := by
    unfold winMin
    rw [← hc]
    have l1 := Int.floor_le (c - supportOf supp srcLen dstLen)
    have l3 := Int.le_ceil (c - fs/2 - 1/2)
    have hcast : ((⌊c - supportOf supp srcLen dstLen⌋ : ℤ) : α) <
        ((⌈c - fs/2 - 1/2⌉ : ℤ) : α) + 1 := by linarith
    have hZ : ⌊c - supportOf supp srcLen dstLen⌋ < ⌈c - fs/2 - 1/2⌉ + 1 := by
      exact_mod_cast hcast
    have hle : ⌈c - fs / 2 - 1/2⌉ ≤ js := le_max_right _ _
    split_ifs <;> omega
  have hmaxgt : js < winMax supp srcLen dstLen i := by
    unfold winMax
    rw [← hc]
    have l3 := Int.le_ceil (c + supportOf supp srcLen dstLen)
    have hcast : (js : α) < ((⌈c + supportOf supp srcLen dstLen⌉ : ℤ) : α) := by
      linarith
    have hceil : js < ⌈c + supportOf supp srcLen dstLen⌉ := by exact_mod_cast hcast
    have hjsZ : js < (srcLen : ℤ) := by exact_mod_cast hjsrc
    split_ifs <;> omega
  have hmem : js ∈ winIdx supp srcLen dstLen i := mem_winIdx hminle hmaxgt
  have hterm : 0 < K (((js : α) - c + 1/2) * (1 / fs)) * (1 / fs) := by
    apply mul_pos _ (by positivity)
    apply hKpos
    · have h1 : -(fs/2) ≤ (js : α) - c + 1/2 := by linarith
      have h2 : -(fs/2) * (1/fs) = -(1/2) := by field_simp [mul_comm]
      calc -(1/2 : α) = -(fs/2) * (1/fs) := h2.symm
        _ ≤ ((js : α) - c + 1/2) * (1/fs) := mul_le_mul_of_nonneg_right h1 (by positivity)
    · have h1 : (js : α) - c + 1/2 < fs/2 := by linarith
      have h2 : (fs/2) * (1/fs) = 1/2 := by field_simp [mul_comm]
      calc ((js : α) - c + 1/2) * (1/fs) < (fs/2) * (1/fs) :=
            mul_lt_mul_of_pos_right h1 (by positivity)
        _ = 1/2 := h2
  unfold wwOf rawW
  rw [← hc, ← hfs]
  refine list_sum_pos_of_mem ?_ (List.mem_map_of_mem _ hmem) hterm
  intro w hw
  obtain ⟨j, hj, rfl⟩ := List.mem_map.mp hw
  exact mul_nonneg (hK0 _) (by positivity)

theorem absC_nonneg (x : α) : 0 ≤ absC x := by
  unfold absC
  split_ifs with h <;> linarith

theorem absC_le_half {x : α} (h1 : -(1/2) ≤ x) (h2 : x < 1/2) : absC x ≤ 1/2 := by
  unfold absC
  split_ifs with h <;> linarith

theorem nearest_filter_nonneg (x : α) : 0 ≤ nearest_filter x := by
  unfold nearest_filter
  split_ifs <;> norm_num

theorem nearest_filter_pos {x : α} (h1 : -(1/2) ≤ x) (h2 : x < 1/2) :
    0 < nearest_filter x := by
  unfold nearest_filter
  rw [if_pos ⟨h1, h2⟩]
  norm_num

theorem bilinear_filter_nonneg (x : α) : 0 ≤ bilinear_filter x := by
  unfold bilinear_filter
  split_ifs with h
  · linarith
  · exact le_refl 0

theorem bilinear_filter_pos {x : α} (h1 : -(1/2) ≤ x) (h2 : x < 1/2) :
    0 < bilinear_filter x := by
  have hy := absC_le_half h1 h2
  unfold bilinear_filter
  rw [if_pos (by linarith)]
  linarith

theorem bicubic_filter_nonneg (x : α) : 0 ≤ bicubic_filter x := by
  have hy0 := absC_nonneg x
  unfold bicubic_filter
  split_ifs with h1 h2
  · nlinarith [mul_nonneg (sq_nonneg (1 - absC x))
      (show (0 : α) ≤ 1 + 2 * absC x by linarith)]
  · have : (1 : α) ≤ absC x := not_lt.mp h1
    nlinarith
  · exact le_refl 0

theorem bicubic_filter_pos {x : α} (h1 : -(1/2) ≤ x) (h2 : x < 1/2) :
    0 < bicubic_filter x := by
  have hy0 := absC_nonneg x
  have hy := absC_le_half h1 h2
  unfold bicubic_filter
  rw [if_pos (by linarith)]
  have hpos : (0 : α) < 1 - absC x := by linarith
  nlinarith [mul_pos (mul_pos hpos hpos) (show (0 : α) < 1 + 2 * absC x by linarith)]

theorem writeCond_iff {imIn imOut : Image} {y i : ℕ} :
    writeCond imIn imOut y i = true ↔
      y < imOut.ysize ∧ i < imOut.xsize * 4 ∧ i % 4 < 3 ∧
        imIn.mode.type = IMAGING_TYPE_UINT8 ∧ imIn.mode.bands = 3 := by
  unfold writeCond
  simp only [Bool.and_eq_true, decide_eq_true_eq]
  tauto

theorem horizPix_unwritten (K : α → α) (supp : α) (imOut imIn : Image) {y i : ℕ}
    (h : ¬ writeCond imIn imOut y i = true) :
    horizPix K supp imOut imIn y i = imOut.image y i := by
  unfold horizPix
  rw [if_neg h]

theorem vertPix_unwritten (K : α → α) (supp : α) (imOut imIn : Image) {y i : ℕ}
    (h : ¬ writeCond imIn imOut y i = true) :
    vertPix K supp imOut imIn y i = imOut.image y i := by
  unfold vertPix
  rw [if_neg h]

theorem horizPix_le_255 (K : α → α) (supp : α) (imOut imIn : Image) {y i : ℕ}
    (h : writeCond imIn imOut y i = true) :
    horizPix K supp imOut imIn y i ≤ 255 := by
  unfold horizPix
  rw [if_pos h]
  exact clip8_le_255 _

theorem vertPix_le_255 (K : α → α) (supp : α) (imOut imIn : Image) {y i : ℕ}
    (h : writeCond imIn imOut y i = true) :
    vertPix K supp imOut imIn y i ≤ 255 := by
  unfold vertPix
  rw [if_pos h]
  exact clip8_le_255 _

theorem filterTable_of_lt4 (aaf : α → α) {f : ℕ} (hf : f < 4) :
    ∃ K supp, filterTable aaf f = some (K, supp) := by
  interval_cases f
  · exact ⟨_, _, rfl⟩
  · exact ⟨_, _, rfl⟩
  · exact ⟨_, _, rfl⟩
  · exact ⟨_, _, rfl⟩

theorem stretch_result_eq (aaf : α → α) (imOut imIn : Image) (f : ℕ)
    (K : α → α) (supp : α)
    (hm : imIn.mode = imOut.mode) (hK : filterTable aaf f = some (K, supp))
    (hax : imIn.ysize = imOut.ysize ∨ imIn.xsize = imOut.xsize) :
    ImagingStretch aaf imOut imIn f =
      .ok (if imIn.xsize = imOut.xsize then vertStretch K supp imOut imIn
        else horizStretch K supp imOut imIn) := by
  unfold ImagingStretch
  rw [if_pos hm, hK]
  show stretchWithKernel K supp imOut imIn = _
  unfold stretchWithKernel
  rw [if_pos hax]
  split_ifs with h <;> rfl

theorem stretch_mismatch_eq (aaf : α → α) (imOut imIn : Image) (f : ℕ)
    (K : α → α) (supp : α)
    (hm : imIn.mode = imOut.mode) (hK : filterTable aaf f = some (K, supp))
    (hy : imIn.ysize ≠ imOut.ysize) (hx : imIn.xsize ≠ imOut.xsize) :
    ImagingStretch aaf imOut imIn f = .error .mismatch := by
  unfold ImagingStretch
  rw [if_pos hm, hK]
  show stretchWithKernel K supp imOut imIn = _
  unfold stretchWithKernel
  rw [if_neg (by tauto)]

theorem stretch_ok_inv (aaf : α → α) {imOut imIn : Image} {f : ℕ} {im2 : Image}
    (heq : ImagingStretch aaf imOut imIn f = .ok im2) :
    ∃ K supp, filterTable aaf f = some (K, supp) ∧
      (im2 = vertStretch K supp imOut imIn ∨ im2 = horizStretch K supp imOut imIn) := by
  unfold ImagingStretch at heq
  split at heq
  · cases hTab : filterTable aaf f with
    | none => rw [hTab] at heq; exact absurd heq (by simp)
    | some ks =>
      obtain ⟨K, supp⟩ := ks
      rw [hTab] at heq
      refine ⟨K, supp, rfl, ?_⟩
      have heq2 : stretchWithKernel K supp imOut imIn = Except.ok im2 := heq
      unfold stretchWithKernel at heq2
      split at heq2
      · split at heq2
        · exact Or.inl (Except.ok.inj heq2).symm
        · exact Or.inr (Except.ok.inj heq2).symm
      · exact absurd heq2 (by simp)
  · exact absurd heq (by simp)

end FieldLemmas

/-! Claim theorems. -/

/-- C1: the claim states that the bicubic kernel with a = 0 returns
a|x|^3 - 5a x^2 + 8a|x| - 4a (which is 0 for a = 0) when 1 <= |x| < 2.
The code instead computes (((a*x) - 5*a)*x + 8)*x - 4*a, whose 8 is not
multiplied by a, so at x = 3/2 it returns 8 * (3/2) = 12, not 0: the code
contradicts the standard Keys formula the spec states, a transcription
slip in the middle branch. -/
theorem C1_bicubic_middle_branch : bicubic_filter (3/2 : ℚ) = 12 := by
  norm_num [bicubic_filter, absC]

/-- C2: for srcLen, dstLen >= 1, i < dstLen and a kernel with positive
support radius, the coefficient builder uses center = (i + 0.5) *
(srcLen / dstLen), window bounds min = clamp(floor(center - support), 0,
srcLen) and max = clamp(ceil(center + support), 0, srcLen) with support =
supp * max(srcLen / dstLen, 1), and raw weight
kernel((j - center + 0.5) / filterscale) / filterscale for every j in
[min, max). -/
theorem C2_coefficient_builder {α : Type*} [LinearOrderedField α] [FloorRing α]
    (K : α → α) (supp : α) (srcLen dstLen i : ℕ)
    (hs : 1 ≤ srcLen) (hd : 1 ≤ dstLen) (hi : i < dstLen) (hsupp : 0 < supp) :
    winMin supp srcLen dstLen i =
      max 0 (min ⌊(((i : α) + 1/2) * ((srcLen : α) / (dstLen : α))) -
        supp * max ((srcLen : α) / (dstLen : α)) 1⌋ (srcLen : ℤ)) ∧
    winMax supp srcLen dstLen i =
      max 0 (min ⌈(((i : α) + 1/2) * ((srcLen : α) / (dstLen : α))) +
        supp * max ((srcLen : α) / (dstLen : α)) 1⌉ (srcLen : ℤ)) ∧
    rawW K supp srcLen dstLen i =
      (winIdx supp srcLen dstLen i).map (fun (j : ℤ) =>
        K (((j : α) - ((i : α) + 1/2) * ((srcLen : α) / (dstLen : α)) + 1/2) /
            max ((srcLen : α) / (dstLen : α)) 1) /
          max ((srcLen : α) / (dstLen : α)) 1) := by
  have hcenter : (centerOf srcLen dstLen i : α) =
      ((i : α) + 1/2) * ((srcLen : α) / (dstLen : α)) := rfl
  have hfsc : (fscaleOf srcLen dstLen : α) = max ((srcLen : α) / (dstLen : α)) 1 :=
    fscaleOf_eq_max
  have hsupport : (supportOf supp srcLen dstLen : α) =
      supp * max ((srcLen : α) / (dstLen : α)) 1 := by
    unfold supportOf
    rw [hfsc]
  have hsuppos : (0 : α) < supportOf supp srcLen dstLen :=
    mul_pos hsupp fscaleOf_pos
  have hc0 : (0 : α) < centerOf srcLen dstLen i := centerOf_pos hs hd
  have hcs : (centerOf srcLen dstLen i : α) < srcLen := centerOf_lt hs hd hi
  refine ⟨?_, ?_, ?_⟩
  · rw [← hcenter, ← hsupport]
    unfold winMin
    have hlt : ⌊(centerOf srcLen dstLen i : α) - supportOf supp srcLen dstLen⌋ <
        (srcLen : ℤ) := by
      rw [Int.floor_lt]
      push_cast
      linarith
    rw [min_eq_left hlt.le]
    split_ifs with h <;> omega
  · rw [← hcenter, ← hsupport]
    unfold winMax
    have h0 : 0 < ⌈(centerOf srcLen dstLen i : α) + supportOf supp srcLen dstLen⌉ := by
      have l2 := Int.le_ceil ((centerOf srcLen dstLen i : α) + supportOf supp srcLen dstLen)
      have : ((0 : ℤ) : α) <
          ((⌈(centerOf srcLen dstLen i : α) + supportOf supp srcLen dstLen⌉ : ℤ) : α) := by
        push_cast
        linarith
      exact_mod_cast this
    have h1 : (1 : ℤ) ≤ (srcLen : ℤ) := by exact_mod_cast hs
    split_ifs with h
    · rw [min_eq_right h.le, max_eq_right (by omega)]
    · rw [min_eq_left (not_lt.mp h), max_eq_right h0.le]
  · unfold rawW
    have hfun : (fun (j : ℤ) =>
        K (((j : α) - centerOf srcLen dstLen i + 1/2) * (1 / fscaleOf srcLen dstLen)) *
          (1 / fscaleOf srcLen dstLen)) =
        (fun (j : ℤ) =>
          K (((j : α) - ((i : α) + 1/2) * ((srcLen : α) / (dstLen : α)) + 1/2) /
              max ((srcLen : α) / (dstLen : α)) 1) /
            max ((srcLen : α) / (dstLen : α)) 1) := by
      funext j
      rw [← hcenter, ← hfsc]
      simp only [div_eq_mul_inv, one_div, one_mul]
    rw [hfun]

/-- C2 witness: the coefficient builder at the bilinear kernel for a
4-to-2 horizontal stretch, destination index 0: the window bounds match
the clamp formulas of the claim. -/
theorem C2_coefficient_builder_witness : winMin (1 : ℚ) 4 2 0 = 0 ∧ winMax (1 : ℚ) 4 2 0 = 3 := by
  have h := C2_coefficient_builder (α := ℚ) bilinear_filter 1 4 2 0
    (by norm_num) (by norm_num) (by norm_num) (by norm_num)
  refine ⟨?_, ?_⟩
  · rw [h.1]
    norm_num
  · rw [h.2.1]
    norm_num

/-- C3 counterexample: the claim states that stretching the 1x4
single-channel 8-bit row [0, 85, 170, 255] to width 2 with the bilinear
filter writes destination samples 42 or 43 and 212 or 213.  On the code
the single-channel 8-bit path is an empty body: the call succeeds but both
destination pixels still hold the sentinel byte 99, so the first output
sample is neither 42 nor 43. -/
theorem C3_single_channel_counterexample :
    (ImagingStretch aaf0 imgDstL2 imgSrcL4 2).toOption.map
      (fun im => (im.image 0 0, im.image 0 4)) = some (99, 99) := by
  decide

/-- C3 (amended): stretching a single-channel 8-bit image (any valid
request with bands = 1 and a supported filter) succeeds but writes no
destination sample: the destination is returned unchanged, because the
single-channel 8-bit convolution body is unimplemented in the source. -/
theorem C3_single_channel_stretch {α : Type*} [LinearOrderedField α] [FloorRing α]
    (aaf : α → α) (imIn imOut : Image) (f : ℕ)
    (hm : imIn.mode = imOut.mode) (hb : imIn.mode.bands = 1) (hf : f < 4)
    (hax : imIn.ysize = imOut.ysize ∨ imIn.xsize = imOut.xsize) (y i : ℕ) :
    (ImagingStretch aaf imOut imIn f).toOption.map (fun im => im.image y i) =
      some (imOut.image y i) := by
  obtain ⟨K, supp, hK⟩ := filterTable_of_lt4 aaf hf
  rw [stretch_result_eq aaf imOut imIn f K supp hm hK hax]
  have hwc : ¬ writeCond imIn imOut y i = true := by
    rw [writeCond_iff]
    intro hcon
    omega
  split_ifs with h
  · simp only [Except.toOption, Option.map, vertStretch]
    rw [vertPix_unwritten K supp imOut imIn hwc]
  · simp only [Except.toOption, Option.map, horizStretch]
    rw [horizPix_unwritten K supp imOut imIn hwc]

/-- C3 witness: the amended claim at the concrete scenario image: the
first destination sample still holds the sentinel 99. -/
theorem C3_single_channel_stretch_witness :
    (ImagingStretch aaf0 imgDstL2 imgSrcL4 2).toOption.map
      (fun im => im.image 0 0) = some 99 :=
  C3_single_channel_stretch aaf0 imgSrcL4 imgDstL2 2 rfl rfl (by norm_num)
    (Or.inl rfl) 0 0

/-- C4 counterexample: the claim states that a request in which both axis
sizes match is rejected as invalid; on the code a 1x1 to 1x1 request with
matching modes and the nearest filter is accepted (it returns the
destination as success, not an error). -/
theorem C4_both_axes_counterexample :
    (ImagingStretch aaf0 imgSq imgSq 0).toOption.isSome = true := by
  decide

/-- C4 (amended): with matching modes and a supported filter, the request
is rejected with DimensionMismatch exactly when neither axis size
matches (no destination image is produced then), so any request with at
least one matching axis is accepted; and when both axis sizes match the
request is accepted and processed by the vertical-stretch pass, whose
per-row scale srcLen / dstLen equals 1 on the matching nonzero vertical
axis, rather than rejected. -/
theorem C4_axis_match_check {α : Type*} [LinearOrderedField α] [FloorRing α]
    (aaf : α → α) (imOut imIn : Image) (f : ℕ) (K : α → α) (supp : α)
    (hm : imIn.mode = imOut.mode) (hK : filterTable aaf f = some (K, supp)) :
    (ImagingStretch aaf imOut imIn f = .error .mismatch ↔
      imIn.ysize ≠ imOut.ysize ∧ imIn.xsize ≠ imOut.xsize) ∧
    ((imIn.ysize = imOut.ysize ∨ imIn.xsize = imOut.xsize) →
      (ImagingStretch aaf imOut imIn f).toOption.isSome = true) ∧
    (imIn.ysize = imOut.ysize → imIn.xsize = imOut.xsize →
      ImagingStretch aaf imOut imIn f = .ok (vertStretch K supp imOut imIn) ∧
        (0 < imOut.ysize → scaleOf (α := α) imIn.ysize imOut.ysize = 1)) := by
  refine ⟨⟨?_, ?_⟩, ?_, ?_⟩
  · intro he
    by_contra hcon
    rw [not_and_or, not_not, not_not] at hcon
    rw [stretch_result_eq aaf imOut imIn f K supp hm hK hcon] at he
    exact absurd he (by simp)
  · rintro ⟨hy, hx⟩
    exact stretch_mismatch_eq aaf imOut imIn f K supp hm hK hy hx
  · intro hax
    rw [stretch_result_eq aaf imOut imIn f K supp hm hK hax]
    rfl
  · intro hy hx
    refine ⟨?_, ?_⟩
    · rw [stretch_result_eq aaf imOut imIn f K supp hm hK (Or.inl hy), if_pos hx]
    · intro h0
      unfold scaleOf
      rw [hy]
      exact div_self (Nat.cast_ne_zero.mpr (by omega))

/-- C4 witness: a 2x3 to 4x5 request (same mode, nearest filter, neither
axis matching) returns DimensionMismatch, via the backward direction of
the biconditional. -/
theorem C4_axis_match_check_witness :
    ImagingStretch aaf0 imgB imgA 0 = .error .mismatch :=
  (C4_axis_match_check aaf0 imgB imgA 0 nearest_filter (1/2) rfl rfl).1.mpr
    ⟨by decide, by decide⟩

/-- C5: for every successful 8-bit 3-band stretch, every sample value
written to the destination (footprint: in-bounds byte at channel offset
0, 1 or 2) lies in [0, 255] (the lower bound holds because samples are
naturals): the accumulator is saturated by clip8 before storage, for any
kernel including ones with negative or over-unity weights. -/
theorem C5_saturation {α : Type*} [LinearOrderedField α] [FloorRing α]
    (aaf : α → α) (imOut imIn : Image) (f : ℕ) (im2 : Image)
    (heq : ImagingStretch aaf imOut imIn f = .ok im2) (y i : ℕ)
    (hy : y < imOut.ysize) (hi : i < imOut.xsize * 4) (hc : i % 4 < 3)
    (ht : imIn.mode.type = IMAGING_TYPE_UINT8) (hb : imIn.mode.bands = 3) :
    im2.image y i ≤ 255 := by
  have hwc : writeCond imIn imOut y i = true := writeCond_iff.mpr ⟨hy, hi, hc, ht, hb⟩
  obtain ⟨K, supp, hK, hcase⟩ := stretch_ok_inv aaf heq
  rcases hcase with rfl | rfl
  · exact vertPix_le_255 K supp imOut imIn hwc
  · exact horizPix_le_255 K supp imOut imIn hwc

/-- C5 witness: the 1x3 identity-size bilinear stretch writes its first
channel byte within [0, 255]. -/
theorem C5_saturation_witness :
    (vertStretch bilinear_filter (1 : ℚ) imgOut3 imgV3).image 0 0 ≤ 255 := by
  have heq : ImagingStretch aaf0 imgOut3 imgV3 2 =
      .ok (vertStretch bilinear_filter (1 : ℚ) imgOut3 imgV3) := by
    have h := stretch_result_eq aaf0 imgOut3 imgV3 2 bilinear_filter 1 rfl rfl (Or.inl rfl)
    rw [if_pos (show imgV3.xsize = imgOut3.xsize from rfl)] at h
    exact h
  exact C5_saturation aaf0 imgOut3 imgV3 2 _ heq 0 0 (by decide) (by decide)
    (by decide) rfl rfl

/-- C6 counterexample: the claim states that the fixed-point weights of
every coefficient row sum to 2^22 with absolute error at most 1.  For the
valid 7x1 to 1x1 bilinear stretch, the single coefficient row has integer
weights summing to 4194300 = 2^22 - 4: the error is 4. -/
theorem C6_normalization_counterexample :
    (ImagingStretch aaf0 imgRow1 imgRow7 2).toOption.isSome = true ∧
    1 < ((intW bilinear_filter (1 : ℚ) 7 1 0).sum - 2 ^ PRECISION_BITS).natAbs := by
  constructor
  · decide
  · have hmin : winMin (1 : ℚ) 7 1 0 = 0 := by
      norm_num [winMin, centerOf, supportOf, fscaleOf, scaleOf]
    have hmax : winMax (1 : ℚ) 7 1 0 = 7 := by
      have hc : ⌈(21 : ℚ)/2⌉ = 11 := by
        rw [Int.ceil_eq_iff]
        norm_num
      norm_num [winMax, centerOf, supportOf, fscaleOf, scaleOf, hc]
    have hidx : winIdx (1 : ℚ) 7 1 0 = [0, 1, 2, 3, 4, 5, 6] := by
      unfold winIdx
      rw [hmin, hmax]
      decide
    have hraw : rawW bilinear_filter (1 : ℚ) 7 1 0 =
        [4/49, 5/49, 6/49, 7/49, 6/49, 5/49, 4/49] := by
      unfold rawW
      rw [hidx]
      norm_num [bilinear_filter, absC, centerOf, supportOf, fscaleOf, scaleOf]
    have hww : wwOf bilinear_filter (1 : ℚ) 7 1 0 = 37/49 := by
      unfold wwOf
      rw [hraw]
      norm_num [List.sum_cons, List.sum_nil]
    have hnorm : normW bilinear_filter (1 : ℚ) 7 1 0 =
        [4/37, 5/37, 6/37, 7/37, 6/37, 5/37, 4/37] := by
      unfold normW
      rw [hraw, hww]
      norm_num
    have hint : intW bilinear_filter (1 : ℚ) 7 1 0 =
        [453438, 566797, 680157, 793516, 680157, 566797, 453438] := by
      unfold intW
      rw [hnorm]
      norm_num [truncI, PRECISION_BITS]
    rw [hint]
    decide

/-- C6 (amended): for every coefficient row with a nonzero raw-weight
total, the fixed-point integer weights sum to 2^22 (PRECISION_BITS = 22)
with an absolute error strictly less than the number of taps in the
window; the error can exceed one unit because each weight is truncated
separately. -/
theorem C6_normalization_bound {α : Type*} [LinearOrderedField α] [FloorRing α]
    (K : α → α) (supp : α) (srcLen dstLen i : ℕ)
    (hww : wwOf K supp srcLen dstLen i ≠ 0) :
    ((intW K supp srcLen dstLen i).sum - 2 ^ PRECISION_BITS).natAbs <
      (winIdx supp srcLen dstLen i).length := by
  have hsum1 : (normW K supp srcLen dstLen i).sum = 1 := by
    unfold normW
    rw [list_sum_map_div]
    exact div_self hww
  set L : List α := (normW K supp srcLen dstLen i).map
    (fun w => w * 2 ^ PRECISION_BITS) with hL
  have hLsum : L.sum = 2 ^ PRECISION_BITS := by
    rw [hL, list_sum_map_mul, hsum1, one_mul]
  have hRne : rawW K supp srcLen dstLen i ≠ [] := by
    intro h
    apply hww
    unfold wwOf
    rw [h]
    rfl
  have hLne : L ≠ [] := by
    rw [hL]
    unfold normW
    intro h
    simp only [List.map_eq_nil_iff] at h
    exact hRne h
  have hkey := trunc_sum_err L hLne
  have hIW : intW K supp srcLen dstLen i = L.map truncI := by
    rw [hL]
    unfold intW
    rw [List.map_map]
    rfl
  have hcast : (((intW K supp srcLen dstLen i).sum : ℤ) : α) =
      (L.map (fun q => ((truncI q : ℤ) : α))).sum := by
    rw [hIW, list_sum_intCast, List.map_map]
    rfl
  have hlen : L.length = (winIdx supp srcLen dstLen i).length := by
    rw [hL]
    unfold normW rawW
    simp [List.length_map]
  have habs : |(((intW K supp srcLen dstLen i).sum : ℤ) : α) - L.sum| <
      ((winIdx supp srcLen dstLen i).length : α) := by
    rw [hcast, ← hlen]
    exact hkey
  have h1 : (((((intW K supp srcLen dstLen i).sum - 2 ^ PRECISION_BITS : ℤ)) : ℤ) : α) =
      (((intW K supp srcLen dstLen i).sum : ℤ) : α) - L.sum := by
    rw [hLsum]
    push_cast
    ring
  have habsz : ((((intW K supp srcLen dstLen i).sum - 2 ^ PRECISION_BITS).natAbs : ℕ) : α) <
      (((winIdx supp srcLen dstLen i).length : ℕ) : α) := by
    rw [Int.cast_natAbs, Int.cast_abs, h1]
    exact habs
  exact_mod_cast habsz

/-- C6 witness: the amended bound at the 7x1 to 1x1 bilinear row, whose
raw weight total is positive. -/
theorem C6_normalization_bound_witness :
    ((intW bilinear_filter (1 : ℚ) 7 1 0).sum - 2 ^ PRECISION_BITS).natAbs <
      (winIdx (1 : ℚ) 7 1 0).length := by
  have hpos : 0 < wwOf bilinear_filter (1 : ℚ) 7 1 0 :=
    wwOf_pos bilinear_filter (by norm_num) (by norm_num) (by norm_num) (by norm_num)
      bilinear_filter_nonneg (fun x h1 h2 => bilinear_filter_pos h1 h2)
  exact C6_normalization_bound bilinear_filter 1 7 1 0 hpos.ne.symm

/-- C7: the claim states that stretching an 8-bit 3-band image to the
same width and height with any of the four filters reproduces every pixel
within one unit.  With the bicubic filter the code fails: its kernel
returns 8 at offsets -1 and 1 (the C1 slip), so the identity-size window
weights are 8/17, 1/17, 8/17 instead of 0, 1, 0.  For the 1x3 column
(0, 255, 0) the code writes 15 at the centre pixel where the claim
requires 255 within one unit. -/
theorem C7_identity_bicubic_bug :
    (ImagingStretch aaf0 imgOut3 imgV3 3).toOption.map (fun im => im.image 1 0) =
      some 15 := by
  have hmin : winMin (2 : ℚ) 3 3 1 = 0 := by
    norm_num [winMin, centerOf, supportOf, fscaleOf, scaleOf]
  have hmax : winMax (2 : ℚ) 3 3 1 = 3 := by
    have hc : ⌈(7 : ℚ)/2⌉ = 4 := by
      rw [Int.ceil_eq_iff]
      norm_num
    norm_num [winMax, centerOf, supportOf, fscaleOf, scaleOf, hc]
  have hidx : winIdx (2 : ℚ) 3 3 1 = [0, 1, 2] := by
    unfold winIdx
    rw [hmin, hmax]
    decide
  have hraw : rawW bicubic_filter (2 : ℚ) 3 3 1 = [8, 1, 8] := by
    unfold rawW
    rw [hidx]
    norm_num [bicubic_filter, absC, centerOf, supportOf, fscaleOf, scaleOf]
  have hww : wwOf bicubic_filter (2 : ℚ) 3 3 1 = 17 := by
    unfold wwOf
    rw [hraw]
    norm_num [List.sum_cons, List.sum_nil]
  have hnorm : normW bicubic_filter (2 : ℚ) 3 3 1 = [8/17, 1/17, 8/17] := by
    unfold normW
    rw [hraw, hww]
    norm_num
  have hint : intW bicubic_filter (2 : ℚ) 3 3 1 = [1973790, 246723, 1973790] := by
    unfold intW
    rw [hnorm]
    norm_num [truncI, PRECISION_BITS]
  rw [stretch_result_eq aaf0 imgOut3 imgV3 3 bicubic_filter 2 rfl rfl (Or.inl rfl)]
  rw [if_pos (show imgV3.xsize = imgOut3.xsize from rfl)]
  simp only [Except.toOption, Option.map]
  show some (vertPix bicubic_filter (2 : ℚ) imgOut3 imgV3 1 0) = some 15
  unfold vertPix
  rw [if_pos (by decide)]
  show some (clip8 (2 ^ (PRECISION_BITS - 1) +
    wsum (fun j => imgV3.image j.toNat 0) (winIdx (2 : ℚ) 3 3 1)
      (intW bicubic_filter (2 : ℚ) 3 3 1))) = some 15
  rw [hidx, hint]
  decide

/-- C8: a stretch whose source and destination differ in sample type or
channel count (the two components of the mode) returns ModeMismatch
immediately; no destination pixel is produced (the error carries no
image). -/
theorem C8_mode_mismatch {α : Type*} [LinearOrderedField α] [FloorRing α]
    (aaf : α → α) (imOut imIn : Image) (f : ℕ)
    (h : imIn.mode.type ≠ imOut.mode.type ∨ imIn.mode.bands ≠ imOut.mode.bands) :
    ImagingStretch aaf imOut imIn f = .error .modeError := by
  have hm : ¬ imIn.mode = imOut.mode := by
    intro he
    rcases h with h | h <;> rw [he] at h <;> exact h rfl
  unfold ImagingStretch
  rw [if_neg hm]

/-- C8 witness: a source with a different sample-type tag is rejected
with ModeMismatch. -/
theorem C8_mode_mismatch_witness :
    ImagingStretch aaf0 imgSq imgF 0 = .error .modeError :=
  C8_mode_mismatch aaf0 imgSq imgF 0 (Or.inl (by decide))

/-- A degenerate but accepted request: a 0x1 source with a 2x1
destination passes every check of ImagingStretch (matching modes,
bilinear filter, matching heights) and is accepted, yet destination
index 0 gets winMin = winMax (an empty window) and a raw weight total of
0 (the normalization loop body then never executes). -/
theorem stretch_empty_source_accepted :
    (ImagingStretch aaf0 imgDst2 imgSrc0 2).toOption.isSome = true ∧
    winMin (1 : ℚ) 0 2 0 = winMax (1 : ℚ) 0 2 0 ∧
    wwOf bilinear_filter (1 : ℚ) 0 2 0 = 0 := by
  have hmin : winMin (1 : ℚ) 0 2 0 = 0 := by
    norm_num [winMin, centerOf, supportOf, fscaleOf, scaleOf]
  have hmax : winMax (1 : ℚ) 0 2 0 = 0 := by
    have hc : ⌈(1 : ℚ)⌉ = 1 := by norm_num [Int.ceil_one]
    norm_num [winMax, centerOf, supportOf, fscaleOf, scaleOf, hc]
  have hidx : winIdx (1 : ℚ) 0 2 0 = [] := by
    unfold winIdx
    rw [hmin, hmax]
    decide
  refine ⟨by decide, by rw [hmin, hmax], ?_⟩
  unfold wwOf rawW
  rw [hidx]
  rfl

/-- For every stretch request with an entry of the filter table and a
nonempty source axis, every destination index has a non-empty window
(winMin < winMax); and for the nearest, bilinear and bicubic kernels
(which are nonnegative and positive near offset 0) the raw weight total
is positive, hence never zero, so their normalization never divides by
zero.  The antialias entry is excluded from the positivity part: the
lanczos3 kernel has negative lobes and its total is not settled in this
development. -/
theorem window_nonempty_weight_pos {α : Type*} [LinearOrderedField α] [FloorRing α]
    (aaf K : α → α) (supp : α) (fid srcLen dstLen i : ℕ)
    (hK : filterTable aaf fid = some (K, supp))
    (hs : 1 ≤ srcLen) (hd : 1 ≤ dstLen) (hi : i < dstLen) :
    winMin supp srcLen dstLen i < winMax supp srcLen dstLen i ∧
      (fid ≠ 1 → 0 < wwOf K supp srcLen dstLen i) := by
  rcases fid with _ | _ | _ | _ | n
  · injection hK with h
    obtain ⟨rfl, rfl⟩ := Prod.mk.inj h
    refine ⟨winMin_lt_winMax (by norm_num) hs hd hi, fun _ => ?_⟩
    exact wwOf_pos nearest_filter hs hd hi (by norm_num) nearest_filter_nonneg
      (fun x h1 h2 => nearest_filter_pos h1 h2)
  · injection hK with h
    obtain ⟨rfl, rfl⟩ := Prod.mk.inj h
    exact ⟨winMin_lt_winMax (by norm_num) hs hd hi, fun h1 => absurd rfl h1⟩
  · injection hK with h
    obtain ⟨rfl, rfl⟩ := Prod.mk.inj h
    refine ⟨winMin_lt_winMax (by norm_num) hs hd hi, fun _ => ?_⟩
    exact wwOf_pos bilinear_filter hs hd hi (by norm_num) bilinear_filter_nonneg
      (fun x h1 h2 => bilinear_filter_pos h1 h2)
  · injection hK with h
    obtain ⟨rfl, rfl⟩ := Prod.mk.inj h
    refine ⟨winMin_lt_winMax (by norm_num) hs hd hi, fun _ => ?_⟩
    exact wwOf_pos bicubic_filter hs hd hi (by norm_num) bicubic_filter_nonneg
      (fun x h1 h2 => bicubic_filter_pos h1 h2)
  · exact Option.noConfusion hK

/-- C10: for every accepted request, the store footprint is exactly the
bytes at channel offsets 0, 1, 2 of each in-bounds 4-byte destination
pixel and only under the 8-bit 3-band mode: the call succeeds; any byte
outside that footprint (out of bounds, channel offset 3, other sample
type, or band count 1, 2 or 4) is returned unchanged; and for any other
sample type or band count no destination byte changes at all. -/
theorem C10_write_footprint {α : Type*} [LinearOrderedField α] [FloorRing α]
    (aaf : α → α) (imOut imIn : Image) (f : ℕ)
    (hm : imIn.mode = imOut.mode) (hf : f < 4)
    (hax : imIn.ysize = imOut.ysize ∨ imIn.xsize = imOut.xsize) :
    (ImagingStretch aaf imOut imIn f).toOption.isSome = true ∧
    (∀ y i : ℕ, ¬(y < imOut.ysize ∧ i < imOut.xsize * 4 ∧ i % 4 < 3 ∧
        imIn.mode.type = IMAGING_TYPE_UINT8 ∧ imIn.mode.bands = 3) →
      (ImagingStretch aaf imOut imIn f).toOption.map (fun im => im.image y i) =
        some (imOut.image y i)) ∧
    (∀ y i : ℕ, i % 4 = 3 →
      (ImagingStretch aaf imOut imIn f).toOption.map (fun im => im.image y i) =
        some (imOut.image y i)) ∧
    ((imIn.mode.type ≠ IMAGING_TYPE_UINT8 ∨ imIn.mode.bands ≠ 3) →
      ∀ y i : ℕ,
        (ImagingStretch aaf imOut imIn f).toOption.map (fun im => im.image y i) =
          some (imOut.image y i)) := by
  obtain ⟨K, supp, hK⟩ := filterTable_of_lt4 aaf hf
  rw [stretch_result_eq aaf imOut imIn f K supp hm hK hax]
  have hpix : ∀ y i : ℕ, ¬ writeCond imIn imOut y i = true →
      (if imIn.xsize = imOut.xsize then vertStretch K supp imOut imIn
        else horizStretch K supp imOut imIn).image y i = imOut.image y i := by
    intro y i hwc
    split_ifs with h
    · exact vertPix_unwritten K supp imOut imIn hwc
    · exact horizPix_unwritten K supp imOut imIn hwc
  refine ⟨rfl, ?_, ?_, ?_⟩
  · intro y i hcond
    simp only [Except.toOption, Option.map]
    rw [hpix y i (by rw [writeCond_iff]; exact hcond)]
  · intro y i h3
    simp only [Except.toOption, Option.map]
    refine (congrArg some (hpix y i ?_))
    rw [writeCond_iff]
    intro hcon
    omega
  · intro hmode y i
    simp only [Except.toOption, Option.map]
    refine (congrArg some (hpix y i ?_))
    rw [writeCond_iff]
    intro hcon
    rcases hmode with hmode | hmode
    · exact hmode hcon.2.2.2.1
    · exact hmode hcon.2.2.2.2

/-- C10 witness: the identity-size bilinear request on the 1x3 images:
the call succeeds and the alpha byte (offset 3) of the first pixel keeps
its sentinel value. -/
theorem C10_write_footprint_witness :
    (ImagingStretch aaf0 imgOut3 imgV3 2).toOption.isSome = true ∧
    (ImagingStretch aaf0 imgOut3 imgV3 2).toOption.map (fun im => im.image 0 3) =
      some (imgOut3.image 0 3) := by
  have h := C10_write_footprint aaf0 imgOut3 imgV3 2 rfl (by norm_num) (Or.inl rfl)
  exact ⟨h.1, h.2.2.1 0 3 rfl⟩

end Antialias
